import Mathlib

/-!
# Verification of `burn-train`'s epoch runners

Shallow embedding of `src/crates/burn-train/src/learner/epoch.rs`:
the validation epoch runner (`ValidEpoch::run`), the single-device training
epoch runner (`TrainEpoch::run`) and the multi-device training epoch runner
(`TrainEpoch::run_multi_device`).

The external collaborators (model, optimizer, learning-rate scheduler,
gradient values) are opaque to the runners, so they are embedded as abstract
types together with the operations the runners invoke on them (`TrainOps`).
Gradient values are kept symbolic (`GradVal`) so that the provenance of every
gradient handed to the optimizer — raw step output, device transfer,
accumulated sum — is recorded.  Every externally observable action of a run
(learning-rate scheduler advance, model step execution, accumulator merge,
optimizer update, emitted `ProcessedItem`/`EndEpoch` event) is recorded in
order in a trace of `Effect`s; the theorems below are statements about these
traces and about the returned state.

The cancellation token (`TrainingInterrupter::should_stop`) is polled once
after each processed item; an execution environment is embedded as the
function `stop : Nat → Bool` giving the value the token holds at the n-th
poll of the run.  The `scope!` macro of `crates/tracing-macro` expands to its
second argument (it only opens a tracing span), so it is transparent here.
-/

namespace BurnEpoch

/-- Symbolic gradient values: the raw gradients returned by one model step
(`TrainOutput::grads`), a gradient set transferred to a device
(`GradientsParams::to_device`), and the sum taken out of a
`GradientsAccumulator` (`accumulator.grads()`), recorded as the list of the
contributions that were merged, in merge order. -/
inductive GradVal (G D : Type) where
  | raw (g : G)
  | toDevice (g : GradVal G D) (d : D)
  | summed (gs : List (GradVal G D))

/-- One observable action of an epoch run, in program order:
`stepExec` — a model step (forward/backward) was executed;
`schedStep lr` — the learning-rate scheduler was advanced and returned `lr`;
`accum g` — `g` was merged into the gradients accumulator;
`optimUpdate lr g` — `model.optimize(&mut optim, lr, g)` was called;
`processed ...` — a `ProcessedItem(LearnerItem)` event was emitted, with the
fields of the `LearnerItem` (output, progress, epoch, epoch_total, iteration,
learning rate);
`endEpoch e` — an `EndEpoch(e)` event was emitted. -/
inductive Effect (O G D LR : Type) where
  | stepExec
  | schedStep (lr : LR)
  | accum (g : GradVal G D)
  | optimUpdate (lr : LR) (g : GradVal G D)
  | processed (out : O) (progress : Nat × Nat) (epoch epochTotal iteration : Nat)
      (lr : Option LR)
  | endEpoch (epoch : Nat)

variable {M Opt S MV I O G D LR : Type}

/-- The operations a training run invokes on its opaque collaborators:
`step` is `TrainStep::step` (returns the `TrainOutput` item and gradients),
`optimize` is `model.optimize(&mut optim, lr, grads)` (returns the updated
model and optimizer), `schedStep` is `LrScheduler::step` (returns the drawn
rate and the advanced scheduler state). -/
structure TrainOps (M Opt S I O G D LR : Type) where
  step : M → I → O × G
  optimize : M → Opt → LR → GradVal G D → M × Opt
  schedStep : S → LR × S

/-- The local mutable state of a training run: the model, the optimizer, the
scheduler state, and the `GradientsAccumulator` (represented by the list of
merged contributions, in merge order) together with `accumulation_current`. -/
structure TState (M Opt S G D : Type) where
  model : M
  optim : Opt
  sched : S
  acc : List (GradVal G D)
  accCur : Nat

/-- `ValidEpoch` (epoch.rs lines 15-20): one data source, epoch index,
epoch total.  A data source is embedded as the list of the items its
iterator yields, in order. -/
structure ValidEpochS (I : Type) where
  dataloader : List I
  epoch : Nat
  epochTotal : Nat

/-- `TrainEpoch` (epoch.rs lines 22-29): a vector of data sources, epoch
index, epoch total, and the optional gradient-accumulation window. -/
structure TrainEpochS (I : Type) where
  dataloader : List (List I)
  epoch : Nat
  epochTotal : Nat
  gradAccumulation : Option Nat

/-- The loop of `ValidEpoch::run` (epoch.rs lines 55-75): per item, run the
(inner) model's validation step, emit a `ProcessedItem` event whose
`LearnerItem` has progress `(items consumed, total)`, the epoch descriptor,
the 1-based iteration counter and no learning rate; then poll the
interrupter and break if it is raised. -/
def validLoop (stepf : MV → I → O) (model : MV) (stop : Nat → Bool)
    (epoch epochTotal total : Nat) :
    List I → Nat → List (Effect O G D LR)
  | [], _iteration => []
  | item :: rest, iteration =>
    let it := iteration + 1
    let out := stepf model item
    let evs : List (Effect O G D LR) :=
      [Effect.stepExec, Effect.processed out (it, total) epoch epochTotal it none]
    if stop it then evs
    else evs ++ validLoop stepf model stop epoch epochTotal total rest it

/-- `ValidEpoch::run` (epoch.rs lines 39-77): run the loop over the single
data source starting from iteration 0, then emit `EndEpoch(self.epoch)`.
`run` takes `&self`, so it cannot mutate the runner; accordingly no updated
`ValidEpochS` is produced. -/
def validRun (stepf : MV → I → O) (stop : Nat → Bool) (v : ValidEpochS I)
    (model : MV) : List (Effect O G D LR) :=
  validLoop stepf model stop v.epoch v.epochTotal v.dataloader.length
      v.dataloader 0 ++ [Effect.endEpoch v.epoch]

/-- The loop of `TrainEpoch::run` (epoch.rs lines 114-151): per item,
increment the iteration counter, advance the scheduler (drawing `lr`), read
the progress, run the model step; then either merge the gradients into the
accumulator and flush into one optimizer update when the window is reached
(`Some` case, lines 123-132), or update the optimizer immediately with this
step's gradients (`None` case, line 133); emit the `ProcessedItem` event with
`Some(lr)`; poll the interrupter and break if raised. -/
def trainLoop (ops : TrainOps M Opt S I O G D LR) (stop : Nat → Bool)
    (gradAccumulation : Option Nat) (epoch epochTotal total : Nat) :
    List I → Nat → TState M Opt S G D →
      List (Effect O G D LR) × TState M Opt S G D × Nat
  | [], iteration, st => ([], st, iteration)
  | item :: rest, iteration, st =>
    let it := iteration + 1
    let lrs := ops.schedStep st.sched
    let lr := lrs.1
    let og := ops.step st.model item
    let stepRes : List (Effect O G D LR) × TState M Opt S G D :=
      match gradAccumulation with
      | some accumulation =>
        let acc2 := st.acc ++ [GradVal.raw og.2]
        let cur2 := st.accCur + 1
        if accumulation ≤ cur2 then
          let g := GradVal.summed acc2
          let mo := ops.optimize st.model st.optim lr g
          ([Effect.accum (GradVal.raw og.2), Effect.optimUpdate lr g],
            ⟨mo.1, mo.2, lrs.2, [], 0⟩)
        else
          ([Effect.accum (GradVal.raw og.2)],
            ⟨st.model, st.optim, lrs.2, acc2, cur2⟩)
      | none =>
        let mo := ops.optimize st.model st.optim lr (GradVal.raw og.2)
        ([Effect.optimUpdate lr (GradVal.raw og.2)],
          ⟨mo.1, mo.2, lrs.2, st.acc, st.accCur⟩)
    let evs := Effect.schedStep lr :: Effect.stepExec :: stepRes.1 ++
      [Effect.processed og.1 (it, total) epoch epochTotal it (some lr)]
    if stop it then (evs, stepRes.2, it)
    else
      let r := trainLoop ops stop gradAccumulation epoch epochTotal total rest it
          stepRes.2
      (evs ++ r.1, r.2.1, r.2.2)

/-- The body of `TrainEpoch::run` once the first data source has been
selected (epoch.rs lines 108-156): run the loop over `dl` from iteration 0
with a fresh accumulator, emit `EndEpoch(self.epoch)`, then increment
`self.epoch`.  Returns the trace, the final local state, and the updated
runner. -/
def trainRunAux (ops : TrainOps M Opt S I O G D LR) (stop : Nat → Bool)
    (dl : List I) (te : TrainEpochS I) (model : M) (optim : Opt) (sched : S) :
    List (Effect O G D LR) × TState M Opt S G D × TrainEpochS I :=
  let r := trainLoop ops stop te.gradAccumulation te.epoch te.epochTotal
      dl.length dl 0 ⟨model, optim, sched, [], 0⟩
  (r.1 ++ [Effect.endEpoch te.epoch], r.2.1,
    ⟨te.dataloader, te.epoch + 1, te.epochTotal, te.gradAccumulation⟩)

/-- `TrainEpoch::run` (epoch.rs lines 94-157).  Line 109 indexes
`self.dataloader[0]`: on an empty vector this is an out-of-bounds panic
before any item is pulled, any event is emitted or the optimizer is touched,
embedded as `none`; otherwise only the first data source is used. -/
def trainRun (ops : TrainOps M Opt S I O G D LR) (stop : Nat → Bool)
    (te : TrainEpochS I) (model : M) (optim : Opt) (sched : S) :
    Option (List (Effect O G D LR) × TState M Opt S G D × TrainEpochS I) :=
  match te.dataloader with
  | [] => none
  | dl :: _ => some (trainRunAux ops stop dl te model optim sched)

/-- Modelled from the spec: `MultiDevicesTrainStep::step` is called by
`run_multi_device` (epoch.rs line 208) but its source is not under `src/`.
Per the spec (§2, §4.5 steps 1-3, §8): it pulls one item from each
per-device iterator in lock-step, runs the model's training step on
per-device read-only replicas of the current model, and collects all
per-device results in device order before returning; once any iterator is
exhausted no further full iteration is accepted — the partial batch is
dropped and no items are returned.  The per-device replicas are read-only
views of the current model, so the step is embedded as `ops.step` applied to
the current model. -/
def multiDeviceStep (stepf : M → I → O × G) (model : M)
    (iters : List (List I)) : List (O × G) × List (List I) :=
  if iters.any List.isEmpty then ([], iters)
  else (iters.filterMap (fun l => l.head?.map (stepf model)),
    iters.map List.tail)

/-- The inner `for item in items` loop of `TrainEpoch::run_multi_device`
(epoch.rs lines 213-245): per collected item, increment the iteration
counter, advance the scheduler, transfer the item's gradients onto the main
device (line 218), merge them into the accumulator, increment
`accumulation_current`, flush into one optimizer update when the effective
window is reached; emit the `ProcessedItem` event (all items of one batch
share the batch's progress); poll the interrupter and on signal set the
`interrupted` flag and break.  Returns the trace, the state, the iteration
counter and the `interrupted` flag. -/
def processBatch (ops : TrainOps M Opt S I O G D LR) (stop : Nat → Bool)
    (accumulation : Nat) (deviceMain : D) (epoch epochTotal : Nat)
    (progress : Nat × Nat) :
    List (O × G) → Nat → TState M Opt S G D →
      List (Effect O G D LR) × TState M Opt S G D × Nat × Bool
  | [], iteration, st => ([], st, iteration, false)
  | og :: rest, iteration, st =>
    let it := iteration + 1
    let lrs := ops.schedStep st.sched
    let lr := lrs.1
    let gmoved := GradVal.toDevice (GradVal.raw og.2) deviceMain
    let acc2 := st.acc ++ [gmoved]
    let cur2 := st.accCur + 1
    let stepRes : List (Effect O G D LR) × TState M Opt S G D :=
      if accumulation ≤ cur2 then
        let g := GradVal.summed acc2
        let mo := ops.optimize st.model st.optim lr g
        ([Effect.accum gmoved, Effect.optimUpdate lr g], ⟨mo.1, mo.2, lrs.2, [], 0⟩)
      else ([Effect.accum gmoved], ⟨st.model, st.optim, lrs.2, acc2, cur2⟩)
    let evs := Effect.schedStep lr :: stepRes.1 ++
      [Effect.processed og.1 progress epoch epochTotal it (some lr)]
    if stop it then (evs, stepRes.2, it, true)
    else
      let r := processBatch ops stop accumulation deviceMain epoch epochTotal
          progress rest it stepRes.2
      (evs ++ r.1, r.2.1, r.2.2.1, r.2.2.2)

/-- The outer `loop` of `TrainEpoch::run_multi_device` (epoch.rs lines
207-250): call the dispatcher; if it returns no items, break; otherwise the
dispatcher has executed one model step per collected item (recorded as
`stepExec` effects), and the inner loop processes the collected items; break
if it was interrupted, else continue with the advanced iterators.

The iterators advance in lock-step, so the iterator list is carried as
`first :: others`; when `first` is exhausted `multiDeviceStep` returns no
items (its `iters.any List.isEmpty` test is true) and the loop breaks, which
the `[]` case returns directly.  The progress reported for a batch is the
progress of the first iterator after the batch was pulled. -/
def multiLoop (ops : TrainOps M Opt S I O G D LR) (stop : Nat → Bool)
    (accumulation : Nat) (deviceMain : D) (epoch epochTotal fstTotal : Nat) :
    List I → List (List I) → Nat → TState M Opt S G D →
      List (Effect O G D LR) × TState M Opt S G D × Nat
  | [], _others, iteration, st => ([], st, iteration)
  | x :: xs, others, iteration, st =>
    let sr := multiDeviceStep ops.step st.model ((x :: xs) :: others)
    if sr.1.isEmpty then ([], st, iteration)
    else
      let execEvs : List (Effect O G D LR) :=
        List.replicate sr.1.length Effect.stepExec
      let progress := (fstTotal - xs.length, fstTotal)
      let pb := processBatch ops stop accumulation deviceMain epoch epochTotal
          progress sr.1 iteration st
      if pb.2.2.2 then (execEvs ++ pb.1, pb.2.1, pb.2.2.1)
      else
        let r := multiLoop ops stop accumulation deviceMain epoch epochTotal
            fstTotal xs (others.map List.tail) pb.2.2.1 pb.2.1
        (execEvs ++ pb.1 ++ r.1, r.2.1, r.2.2)

/-- The body of `TrainEpoch::run_multi_device` once the main device has been
selected (epoch.rs lines 195-256): effective accumulation window
`grad_accumulation.unwrap_or(1) * devices.len()` (line 200), main device =
first device of the list (line 204), loop over the per-source iterators from
iteration 0 with a fresh accumulator, then emit `EndEpoch(self.epoch)` and
increment `self.epoch`. -/
def trainRunMultiAux (ops : TrainOps M Opt S I O G D LR) (stop : Nat → Bool)
    (deviceMain : D) (deviceRest : List D) (te : TrainEpochS I) (model : M)
    (optim : Opt) (sched : S) :
    List (Effect O G D LR) × TState M Opt S G D × TrainEpochS I :=
  let accumulation := te.gradAccumulation.getD 1 * (deviceMain :: deviceRest).length
  let fstTotal := (te.dataloader.headD []).length
  let r := multiLoop ops stop accumulation deviceMain te.epoch te.epochTotal
      fstTotal (te.dataloader.headD []) te.dataloader.tail 0
      ⟨model, optim, sched, [], 0⟩
  (r.1 ++ [Effect.endEpoch te.epoch], r.2.1,
    ⟨te.dataloader, te.epoch + 1, te.epochTotal, te.gradAccumulation⟩)

/-- `TrainEpoch::run_multi_device` (epoch.rs lines 174-257).  Line 204,
`devices.first().expect("A minimum of one device.")`, panics on an empty
device list before the loop starts — before any item is pulled, any event is
emitted or the optimizer is touched — embedded as `none`. -/
def trainRunMulti (ops : TrainOps M Opt S I O G D LR) (stop : Nat → Bool)
    (devices : List D) (te : TrainEpochS I) (model : M) (optim : Opt)
    (sched : S) :
    Option (List (Effect O G D LR) × TState M Opt S G D × TrainEpochS I) :=
  match devices with
  | [] => none
  | deviceMain :: rest =>
    some (trainRunMultiAux ops stop deviceMain rest te model optim sched)

/-! ## Trace projections -/

/-- Is this effect an emitted `ProcessedItem` event? -/
@[simp] def isProcessed : Effect O G D LR → Bool
  | .processed _ _ _ _ _ _ => true
  | _ => false

/-- Is this effect an emitted `EndEpoch` event? -/
@[simp] def isEnd : Effect O G D LR → Bool
  | .endEpoch _ => true
  | _ => false

/-- Is this effect an optimizer update? -/
@[simp] def isOptim : Effect O G D LR → Bool
  | .optimUpdate _ _ => true
  | _ => false

/-- Is this effect a scheduler advance? -/
@[simp] def isSched : Effect O G D LR → Bool
  | .schedStep _ => true
  | _ => false

/-- Is this effect a model step execution? -/
@[simp] def isStepExec : Effect O G D LR → Bool
  | .stepExec => true
  | _ => false

/-- Is this effect an accumulator merge? -/
@[simp] def isAccum : Effect O G D LR → Bool
  | .accum _ => true
  | _ => false

/-- Number of `ProcessedItem` events in a trace. -/
@[simp] def countProcessed (l : List (Effect O G D LR)) : Nat :=
  (l.filter isProcessed).length

/-- Number of `EndEpoch` events in a trace. -/
@[simp] def countEnd (l : List (Effect O G D LR)) : Nat := (l.filter isEnd).length

/-- Number of optimizer updates in a trace. -/
@[simp] def countOptim (l : List (Effect O G D LR)) : Nat := (l.filter isOptim).length

/-- Number of scheduler advances in a trace. -/
@[simp] def countSched (l : List (Effect O G D LR)) : Nat := (l.filter isSched).length

/-- Number of model step executions in a trace. -/
@[simp] def countStepExec (l : List (Effect O G D LR)) : Nat :=
  (l.filter isStepExec).length

/-- The iteration counters of the `ProcessedItem` events of a trace, in
emission order. -/
@[simp] def processedIters (l : List (Effect O G D LR)) : List Nat :=
  l.filterMap (fun e =>
    match e with
    | .processed _ _ _ _ it _ => some it
    | _ => none)

/-- The learning rates drawn by the scheduler advances of a trace, in order. -/
@[simp] def schedLRs (l : List (Effect O G D LR)) : List LR :=
  l.filterMap (fun e =>
    match e with
    | .schedStep lr => some lr
    | _ => none)

/-- The learning rates recorded in the `ProcessedItem` events of a trace, in
order (events with no rate contribute nothing). -/
@[simp] def itemLRs (l : List (Effect O G D LR)) : List LR :=
  l.filterMap (fun e =>
    match e with
    | .processed _ _ _ _ _ (some lr) => some lr
    | _ => none)

/-- The last element of the trace, if any, is a `ProcessedItem` event. -/
def lastProcessedOrNil (l : List (Effect O G D LR)) : Prop :=
  match l.getLast? with
  | some e => isProcessed e = true
  | none => True

/-- Adjacent-pair relation: every optimizer update is immediately followed
by the `ProcessedItem` event of the same iteration, carrying the same
learning rate; other pairs are unconstrained. -/
def optimLabeled : Effect O G D LR → Effect O G D LR → Prop
  | .optimUpdate lr _, e2 =>
    ∃ out pr ep tot it, e2 = Effect.processed out pr ep tot it (some lr)
  | _, _ => True

/-- Adjacent-pair relation of the single-device training trace: every
scheduler advance is immediately followed by the model step execution of the
same iteration, and every optimizer update is immediately followed by the
`ProcessedItem` event of the same iteration with the same learning rate;
other pairs are unconstrained. -/
def singleSucc : Effect O G D LR → Effect O G D LR → Prop
  | .schedStep _, e2 => e2 = Effect.stepExec
  | .optimUpdate lr _, e2 =>
    ∃ out pr ep tot it, e2 = Effect.processed out pr ep tot it (some lr)
  | _, _ => True

/-- Whether a scheduler advance occurs at position `n` of the trace. -/
def schedAt (l : List (Effect O G D LR)) (n : Nat) : Bool :=
  match l.get? n with
  | some e => isSched e
  | none => false

/-- Whether a model step execution occurs at position `n` of the trace. -/
def stepExecAt (l : List (Effect O G D LR)) (n : Nat) : Bool :=
  match l.get? n with
  | some e => isStepExec e
  | none => false

/-- Every accumulator merge of the trace merges a gradient set that was
first transferred onto device `d`. -/
def accumMovedTo (d : D) (l : List (Effect O G D LR)) : Prop :=
  l.Forall (fun e =>
    match e with
    | .accum g => ∃ gr, g = GradVal.toDevice (GradVal.raw gr) d
    | _ => True)

/-! ## Concrete instantiation used for counterexamples and witnesses -/

/-- A concrete instantiation of all opaque collaborators by `Nat`, used to
evaluate the runners on concrete inputs. -/
def natOps : TrainOps Nat Nat Nat Nat Nat Nat Nat Nat :=
  ⟨fun m i => (m + i, i + 1), fun m o _ _ => (m + 1, o + 1),
    fun s => (s + 1, s + 1)⟩

/-- An interrupter that is never raised. -/
def noStop : Nat → Bool := fun _ => false

/-- An interrupter raised from the `k`-th poll on. -/
def stopFrom (k : Nat) : Nat → Bool := fun n => k ≤ n


/-! ## Helper lemmas -/

theorem div_flush_arith (p c W : Nat) (hc : c + 1 = W) :
    p / W + 1 = (c + (p + 1)) / W := by
  have h1 : c + (p + 1) = p + W := by omega
  rw [h1, Nat.add_div_right _ (by omega)]

theorem mod_flush_arith (p c W : Nat) (hc : c + 1 = W) :
    p % W = (c + (p + 1)) % W := by
  have h1 : c + (p + 1) = p + W := by omega
  rw [h1, Nat.add_mod_right]

theorem div_accum_arith (a p W : Nat) (hW : 0 < W) :
    a / W + (a % W + p) / W = (a + p) / W := by
  conv_rhs => rw [show a + p = W * (a / W) + (a % W + p) from by
    have := Nat.div_add_mod a W
    omega]
  rw [Nat.mul_add_div hW]

theorem lastOk_cons {e : Effect O G D LR} {l : List (Effect O G D LR)}
    (h : lastProcessedOrNil l) (he : l = [] → isProcessed e = true) :
    lastProcessedOrNil (e :: l) := by
  unfold lastProcessedOrNil at h ⊢
  cases l with
  | nil => simpa using he rfl
  | cons b bs => simpa [List.getLast?_cons_cons] using h

theorem lastOk_append {l1 l2 : List (Effect O G D LR)}
    (h2 : lastProcessedOrNil l2) (h1 : l2 = [] → lastProcessedOrNil l1) :
    lastProcessedOrNil (l1 ++ l2) := by
  unfold lastProcessedOrNil at h2 ⊢
  rw [List.getLast?_append]
  cases hg : l2.getLast? with
  | none =>
    have hnil : l2 = [] := List.getLast?_eq_none_iff.mp hg
    have h1x := h1 hnil
    unfold lastProcessedOrNil at h1x
    simpa using h1x
  | some ev =>
    rw [hg] at h2
    simpa using h2

theorem chain'_append_procLast {R : Effect O G D LR → Effect O G D LR → Prop}
    (hproc : ∀ x y, isProcessed x = true → R x y)
    {l1 l2 : List (Effect O G D LR)} (h1 : List.Chain' R l1)
    (h2 : List.Chain' R l2) (hl : lastProcessedOrNil l1) :
    List.Chain' R (l1 ++ l2) := by
  refine List.chain'_append.mpr ⟨h1, h2, ?_⟩
  intro x hx y hy
  unfold lastProcessedOrNil at hl
  rw [Option.mem_def] at hx
  rw [hx] at hl
  exact hproc x y hl

theorem optimLabeled_of_processed (x y : Effect O G D LR)
    (hx : isProcessed x = true) : optimLabeled x y := by
  cases x <;> simp at hx <;> simp [optimLabeled]

theorem singleSucc_of_processed (x y : Effect O G D LR)
    (hx : isProcessed x = true) : singleSucc x y := by
  cases x <;> simp at hx <;> simp [singleSucc]

theorem chain'_prepend_stepExecs {l : List (Effect O G D LR)} (n : Nat)
    (h : List.Chain' optimLabeled l) :
    List.Chain' optimLabeled (List.replicate n Effect.stepExec ++ l) := by
  induction n with
  | zero => simpa
  | succ m ihm =>
    rw [List.replicate_succ, List.cons_append]
    refine List.chain'_cons'.mpr ⟨?_, ihm⟩
    intro y hy
    simp [optimLabeled]

theorem validLoop_countEnd (stepf : MV → I → O) (model : MV) (stop : Nat → Bool)
    (e t tot : Nat) :
    ∀ (items : List I) (it : Nat),
      countEnd (validLoop stepf model stop e t tot items it : List (Effect O G D LR)) = 0 := by
  intro items
  induction items with
  | nil => intro it; simp [validLoop, countEnd]
  | cons x rest ih =>
    intro it
    by_cases hs : stop (it + 1) <;>
      simp [validLoop, hs, countEnd, isEnd, List.filter_append, ih (it + 1)] <;>
      simp [countEnd, isEnd] at ih ⊢ <;> exact ih (it + 1)

theorem validLoop_iters (stepf : MV → I → O) (model : MV) (stop : Nat → Bool)
    (e t tot : Nat) :
    ∀ (items : List I) (it : Nat),
      processedIters (validLoop stepf model stop e t tot items it : List (Effect O G D LR)) =
        List.range' (it + 1)
          (countProcessed (validLoop stepf model stop e t tot items it : List (Effect O G D LR))) := by
  intro items
  induction items with
  | nil => intro it; simp [validLoop, processedIters, countProcessed]
  | cons x rest ih =>
    intro it
    by_cases hs : stop (it + 1)
    · simp [validLoop, hs, processedIters, countProcessed, isProcessed]
    · simp [validLoop, hs, processedIters, countProcessed, isProcessed,
        List.filter_append, List.filterMap_append] at ih ⊢
      rw [ih (it + 1), List.range'_succ]

theorem validLoop_cancel (stepf : MV → I → O) (model : MV) (stop : Nat → Bool)
    (e t tot k : Nat) (hk : stop k = true) :
    ∀ (items : List I) (it : Nat), it < k →
      countProcessed (validLoop stepf model stop e t tot items it : List (Effect O G D LR)) ≤ k - it := by
  intro items
  induction items with
  | nil => intro it h; simp [validLoop, countProcessed]
  | cons x rest ih =>
    intro it hlt
    by_cases hs : stop (it + 1)
    · simp [validLoop, hs, countProcessed, isProcessed]
      omega
    · have hne : it + 1 ≠ k := fun h => by rw [h] at hs; exact hs hk
      have hlt2 : it + 1 < k := by omega
      have := ih (it + 1) hlt2
      simp [validLoop, hs, countProcessed, isProcessed, List.filter_append] at this ⊢
      omega

theorem trainLoop_countEnd (ops : TrainOps M Opt S I O G D LR) (stop : Nat → Bool)
    (ga : Option Nat) (e t tot : Nat) :
    ∀ (items : List I) (it : Nat) (st : TState M Opt S G D),
      countEnd (trainLoop ops stop ga e t tot items it st).1 = 0 := by
  intro items
  induction items with
  | nil => intro it st; simp [trainLoop]
  | cons x rest ih =>
    intro it st
    simp at ih
    rcases ga with _ | W
    · by_cases hs : stop (it + 1)
      · simp [trainLoop, hs]
      · simp [trainLoop, hs, List.filter_append]
        exact fun a ha => ih _ _ a ha
    · by_cases hw : W ≤ st.accCur + 1 <;> by_cases hs : stop (it + 1)
      · simp [trainLoop, hs, hw]
      · simp [trainLoop, hs, hw, List.filter_append]
        exact fun a ha => ih _ _ a ha
      · simp [trainLoop, hs, hw]
      · simp [trainLoop, hs, hw, List.filter_append]
        exact fun a ha => ih _ _ a ha

theorem trainLoop_iters (ops : TrainOps M Opt S I O G D LR) (stop : Nat → Bool)
    (ga : Option Nat) (e t tot : Nat) :
    ∀ (items : List I) (it : Nat) (st : TState M Opt S G D),
      processedIters (trainLoop ops stop ga e t tot items it st).1 =
        List.range' (it + 1)
          (countProcessed (trainLoop ops stop ga e t tot items it st).1) := by
  intro items
  induction items with
  | nil => intro it st; simp [trainLoop]
  | cons x rest ih =>
    intro it st
    simp at ih
    rcases ga with _ | W
    · by_cases hs : stop (it + 1)
      · simp [trainLoop, hs]
      · simp [trainLoop, hs, List.filter_append, List.filterMap_append, ih]
        rw [List.range'_succ]
    · by_cases hw : W ≤ st.accCur + 1 <;> by_cases hs : stop (it + 1)
      · simp [trainLoop, hs, hw]
      · simp [trainLoop, hs, hw, List.filter_append, List.filterMap_append, ih]
        rw [List.range'_succ]
      · simp [trainLoop, hs, hw]
      · simp [trainLoop, hs, hw, List.filter_append, List.filterMap_append, ih]
        rw [List.range'_succ]

theorem trainLoop_none_optim (ops : TrainOps M Opt S I O G D LR) (stop : Nat → Bool)
    (e t tot : Nat) :
    ∀ (items : List I) (it : Nat) (st : TState M Opt S G D),
      countOptim (trainLoop ops stop none e t tot items it st).1 =
        countProcessed (trainLoop ops stop none e t tot items it st).1 := by
  intro items
  induction items with
  | nil => intro it st; simp [trainLoop]
  | cons x rest ih =>
    intro it st
    simp at ih
    by_cases hs : stop (it + 1) <;>
      simp [trainLoop, hs, List.filter_append, ih]

theorem trainLoop_cancel (ops : TrainOps M Opt S I O G D LR) (stop : Nat → Bool)
    (ga : Option Nat) (e t tot k : Nat) (hk : stop k = true) :
    ∀ (items : List I) (it : Nat) (st : TState M Opt S G D), it < k →
      countProcessed (trainLoop ops stop ga e t tot items it st).1 ≤ k - it := by
  intro items
  induction items with
  | nil => intro it st h; simp [trainLoop]
  | cons x rest ih =>
    intro it st hlt
    simp at ih
    have hnext : ¬ stop (it + 1) = true → it + 1 < k := by
      intro hs
      rcases Nat.lt_or_ge (it + 1) k with h | h
      · exact h
      · have : it + 1 = k := by omega
        rw [this] at hs; exact absurd hk hs
    rcases ga with _ | W
    · by_cases hs : stop (it + 1)
      · simp [trainLoop, hs]; omega
      · simp [trainLoop, hs, List.filter_append]
        refine le_trans (Nat.add_le_add_right (ih (it + 1) _ (hnext hs)) 1) ?_
        omega
    · by_cases hw : W ≤ st.accCur + 1 <;> by_cases hs : stop (it + 1)
      · simp [trainLoop, hs, hw]; omega
      · simp [trainLoop, hs, hw, List.filter_append]
        refine le_trans (Nat.add_le_add_right (ih (it + 1) _ (hnext hs)) 1) ?_
        omega
      · simp [trainLoop, hs, hw]; omega
      · simp [trainLoop, hs, hw, List.filter_append]
        refine le_trans (Nat.add_le_add_right (ih (it + 1) _ (hnext hs)) 1) ?_
        omega

theorem trainLoop_some_optim (ops : TrainOps M Opt S I O G D LR) (stop : Nat → Bool)
    (W e t tot : Nat) (hW : 1 ≤ W) :
    ∀ (items : List I) (it : Nat) (st : TState M Opt S G D),
      st.accCur < W → st.acc.length = st.accCur →
      countOptim (trainLoop ops stop (some W) e t tot items it st).1 =
          (st.accCur + countProcessed (trainLoop ops stop (some W) e t tot items it st).1) / W ∧
        (trainLoop ops stop (some W) e t tot items it st).2.1.accCur =
          (st.accCur + countProcessed (trainLoop ops stop (some W) e t tot items it st).1) % W ∧
        (trainLoop ops stop (some W) e t tot items it st).2.1.acc.length =
          (trainLoop ops stop (some W) e t tot items it st).2.1.accCur := by
  intro items
  induction items with
  | nil =>
    intro it st hcur hlen
    simp [trainLoop]
    refine ⟨(Nat.div_eq_of_lt hcur).symm, (Nat.mod_eq_of_lt hcur).symm, hlen⟩
  | cons x rest ih =>
    intro it st hcur hlen
    by_cases hw : W ≤ st.accCur + 1 <;> by_cases hs : stop (it + 1)
    · have hc : st.accCur + 1 = W := by omega
      simp [trainLoop, hs, hw]
      refine ⟨?_, ?_⟩
      · rw [← hc, Nat.div_self (by omega)]
      · rw [← hc, Nat.mod_self]
    · have hc : st.accCur + 1 = W := by omega
      obtain ⟨h1, h2, h3⟩ := ih (it + 1) ⟨_, _, _, ([] : List (GradVal G D)), 0⟩ hW (by simp)
      simp at h1 h2 h3
      simp [trainLoop, hs, hw, List.filter_append]
      rw [h1, h2]
      refine ⟨?_, ?_, h3.trans h2⟩
      · exact div_flush_arith _ _ _ hc
      · exact mod_flush_arith _ _ _ hc
    · simp [trainLoop, hs, hw]
      have hlt : st.accCur + 1 < W := by omega
      refine ⟨(Nat.div_eq_of_lt hlt).symm, (Nat.mod_eq_of_lt hlt).symm, by simp [hlen]⟩
    · have hlt : st.accCur + 1 < W := by omega
      obtain ⟨h1, h2, h3⟩ := ih (it + 1)
        ⟨st.model, st.optim, (ops.schedStep st.sched).2,
          st.acc ++ [GradVal.raw (ops.step st.model x).2], st.accCur + 1⟩ hlt (by simp [hlen])
      simp at h1 h2 h3
      simp [trainLoop, hs, hw, List.filter_append]
      rw [h1, h2]
      refine ⟨?_, ?_, h3.trans h2⟩
      · congr 1
        omega
      · congr 1
        omega

theorem trainLoop_schedLRs (ops : TrainOps M Opt S I O G D LR) (stop : Nat → Bool)
    (ga : Option Nat) (e t tot : Nat) :
    ∀ (items : List I) (it : Nat) (st : TState M Opt S G D),
      schedLRs (trainLoop ops stop ga e t tot items it st).1 =
        itemLRs (trainLoop ops stop ga e t tot items it st).1 := by
  intro items
  induction items with
  | nil => intro it st; simp [trainLoop]
  | cons x rest ih =>
    intro it st
    simp at ih
    rcases ga with _ | W
    · by_cases hs : stop (it + 1) <;>
        simp [trainLoop, hs, List.filterMap_append, ih]
    · by_cases hw : W ≤ st.accCur + 1 <;> by_cases hs : stop (it + 1) <;>
        simp [trainLoop, hs, hw, List.filterMap_append, ih]

theorem trainLoop_countSched (ops : TrainOps M Opt S I O G D LR) (stop : Nat → Bool)
    (ga : Option Nat) (e t tot : Nat) :
    ∀ (items : List I) (it : Nat) (st : TState M Opt S G D),
      countSched (trainLoop ops stop ga e t tot items it st).1 =
        countProcessed (trainLoop ops stop ga e t tot items it st).1 := by
  intro items
  induction items with
  | nil => intro it st; simp [trainLoop]
  | cons x rest ih =>
    intro it st
    simp at ih
    rcases ga with _ | W
    · by_cases hs : stop (it + 1) <;>
        simp [trainLoop, hs, List.filter_append, ih]
    · by_cases hw : W ≤ st.accCur + 1 <;> by_cases hs : stop (it + 1) <;>
        simp [trainLoop, hs, hw, List.filter_append, ih]

theorem trainLoop_last (ops : TrainOps M Opt S I O G D LR) (stop : Nat → Bool)
    (ga : Option Nat) (e t tot : Nat) :
    ∀ (items : List I) (it : Nat) (st : TState M Opt S G D),
      lastProcessedOrNil (trainLoop ops stop ga e t tot items it st).1 := by
  intro items
  induction items with
  | nil => intro it st; simp [trainLoop, lastProcessedOrNil]
  | cons x rest ih =>
    intro it st
    rcases ga with _ | W
    · by_cases hs : stop (it + 1)
      · simp [trainLoop, hs, lastProcessedOrNil]
      · simp only [trainLoop, hs]
        simp only [List.cons_append, List.append_assoc, List.singleton_append,
          Bool.false_eq_true, if_false]
        iterate 3 refine lastOk_cons ?_ (by intro h; exact absurd h (List.cons_ne_nil _ _))
        exact lastOk_cons (ih _ _) (fun _ => rfl)
    · by_cases hw : W ≤ st.accCur + 1 <;> by_cases hs : stop (it + 1)
      · simp [trainLoop, hs, hw, lastProcessedOrNil]
      · simp only [trainLoop, hs, hw]
        simp only [List.cons_append, List.append_assoc, List.singleton_append,
          Bool.false_eq_true, if_false, if_true, if_pos hw]
        iterate 4 refine lastOk_cons ?_ (by intro h; exact absurd h (List.cons_ne_nil _ _))
        exact lastOk_cons (ih _ _) (fun _ => rfl)
      · simp [trainLoop, hs, hw, lastProcessedOrNil]
      · simp only [trainLoop, hs, hw]
        simp only [List.cons_append, List.append_assoc, List.singleton_append,
          Bool.false_eq_true, if_false, if_neg hw]
        iterate 3 refine lastOk_cons ?_ (by intro h; exact absurd h (List.cons_ne_nil _ _))
        exact lastOk_cons (ih _ _) (fun _ => rfl)

theorem trainLoop_chain (ops : TrainOps M Opt S I O G D LR) (stop : Nat → Bool)
    (ga : Option Nat) (e t tot : Nat) :
    ∀ (items : List I) (it : Nat) (st : TState M Opt S G D),
      List.Chain' singleSucc (trainLoop ops stop ga e t tot items it st).1 := by
  intro items
  induction items with
  | nil => intro it st; simp [trainLoop]
  | cons x rest ih =>
    intro it st
    rcases ga with _ | W
    · by_cases hs : stop (it + 1) <;>
        simp [trainLoop, hs, List.chain'_cons', singleSucc, ih]
    · by_cases hw : W ≤ st.accCur + 1 <;> by_cases hs : stop (it + 1) <;>
        simp [trainLoop, hs, hw, List.chain'_cons', singleSucc, ih]

theorem processBatch_countEnd (ops : TrainOps M Opt S I O G D LR) (stop : Nat → Bool)
    (aw : Nat) (dm : D) (e t : Nat) (pr : Nat × Nat) :
    ∀ (items : List (O × G)) (it : Nat) (st : TState M Opt S G D),
      countEnd (processBatch ops stop aw dm e t pr items it st).1 = 0 := by
  intro items
  induction items with
  | nil => intro it st; simp [processBatch]
  | cons x rest ih =>
    intro it st
    simp at ih
    by_cases hw : aw ≤ st.accCur + 1 <;> by_cases hs : stop (it + 1)
    · simp [processBatch, hs, hw]
    · simp [processBatch, hs, hw, List.filter_append]
      exact fun a ha => ih _ _ a ha
    · simp [processBatch, hs, hw]
    · simp [processBatch, hs, hw, List.filter_append]
      exact fun a ha => ih _ _ a ha

theorem processBatch_iters (ops : TrainOps M Opt S I O G D LR) (stop : Nat → Bool)
    (aw : Nat) (dm : D) (e t : Nat) (pr : Nat × Nat) :
    ∀ (items : List (O × G)) (it : Nat) (st : TState M Opt S G D),
      processedIters (processBatch ops stop aw dm e t pr items it st).1 =
        List.range' (it + 1)
          (countProcessed (processBatch ops stop aw dm e t pr items it st).1) := by
  intro items
  induction items with
  | nil => intro it st; simp [processBatch]
  | cons x rest ih =>
    intro it st
    simp at ih
    by_cases hw : aw ≤ st.accCur + 1 <;> by_cases hs : stop (it + 1)
    · simp [processBatch, hs, hw]
    · simp [processBatch, hs, hw, List.filter_append, List.filterMap_append, ih]
      rw [List.range'_succ]
    · simp [processBatch, hs, hw]
    · simp [processBatch, hs, hw, List.filter_append, List.filterMap_append, ih]
      rw [List.range'_succ]

theorem processBatch_itSum (ops : TrainOps M Opt S I O G D LR) (stop : Nat → Bool)
    (aw : Nat) (dm : D) (e t : Nat) (pr : Nat × Nat) :
    ∀ (items : List (O × G)) (it : Nat) (st : TState M Opt S G D),
      (processBatch ops stop aw dm e t pr items it st).2.2.1 =
        it + countProcessed (processBatch ops stop aw dm e t pr items it st).1 := by
  intro items
  induction items with
  | nil => intro it st; simp [processBatch]
  | cons x rest ih =>
    intro it st
    simp at ih
    by_cases hw : aw ≤ st.accCur + 1 <;> by_cases hs : stop (it + 1) <;>
      simp [processBatch, hs, hw, List.filter_append, ih] <;> omega

theorem processBatch_schedLRs (ops : TrainOps M Opt S I O G D LR) (stop : Nat → Bool)
    (aw : Nat) (dm : D) (e t : Nat) (pr : Nat × Nat) :
    ∀ (items : List (O × G)) (it : Nat) (st : TState M Opt S G D),
      schedLRs (processBatch ops stop aw dm e t pr items it st).1 =
        itemLRs (processBatch ops stop aw dm e t pr items it st).1 := by
  intro items
  induction items with
  | nil => intro it st; simp [processBatch]
  | cons x rest ih =>
    intro it st
    simp at ih
    by_cases hw : aw ≤ st.accCur + 1 <;> by_cases hs : stop (it + 1) <;>
      simp [processBatch, hs, hw, List.filterMap_append, ih]

theorem processBatch_countSched (ops : TrainOps M Opt S I O G D LR) (stop : Nat → Bool)
    (aw : Nat) (dm : D) (e t : Nat) (pr : Nat × Nat) :
    ∀ (items : List (O × G)) (it : Nat) (st : TState M Opt S G D),
      countSched (processBatch ops stop aw dm e t pr items it st).1 =
        countProcessed (processBatch ops stop aw dm e t pr items it st).1 := by
  intro items
  induction items with
  | nil => intro it st; simp [processBatch]
  | cons x rest ih =>
    intro it st
    simp at ih
    by_cases hw : aw ≤ st.accCur + 1 <;> by_cases hs : stop (it + 1) <;>
      simp [processBatch, hs, hw, List.filter_append, ih]

theorem processBatch_last (ops : TrainOps M Opt S I O G D LR) (stop : Nat → Bool)
    (aw : Nat) (dm : D) (e t : Nat) (pr : Nat × Nat) :
    ∀ (items : List (O × G)) (it : Nat) (st : TState M Opt S G D),
      lastProcessedOrNil (processBatch ops stop aw dm e t pr items it st).1 := by
  intro items
  induction items with
  | nil => intro it st; simp [processBatch, lastProcessedOrNil]
  | cons x rest ih =>
    intro it st
    by_cases hw : aw ≤ st.accCur + 1 <;> by_cases hs : stop (it + 1)
    · simp [processBatch, hs, hw, lastProcessedOrNil]
    · simp only [processBatch, hs, hw]
      simp only [List.cons_append, List.append_assoc, List.singleton_append,
        Bool.false_eq_true, if_false, if_true, if_pos hw]
      iterate 3 refine lastOk_cons ?_ (by intro h; exact absurd h (List.cons_ne_nil _ _))
      exact lastOk_cons (ih _ _) (fun _ => rfl)
    · simp [processBatch, hs, hw, lastProcessedOrNil]
    · simp only [processBatch, hs, hw]
      simp only [List.cons_append, List.append_assoc, List.singleton_append,
        Bool.false_eq_true, if_false, if_neg hw]
      iterate 2 refine lastOk_cons ?_ (by intro h; exact absurd h (List.cons_ne_nil _ _))
      exact lastOk_cons (ih _ _) (fun _ => rfl)

theorem processBatch_chain (ops : TrainOps M Opt S I O G D LR) (stop : Nat → Bool)
    (aw : Nat) (dm : D) (e t : Nat) (pr : Nat × Nat) :
    ∀ (items : List (O × G)) (it : Nat) (st : TState M Opt S G D),
      List.Chain' optimLabeled (processBatch ops stop aw dm e t pr items it st).1 := by
  intro items
  induction items with
  | nil => intro it st; simp [processBatch]
  | cons x rest ih =>
    intro it st
    by_cases hw : aw ≤ st.accCur + 1 <;> by_cases hs : stop (it + 1) <;>
      simp [processBatch, hs, hw, List.chain'_cons', optimLabeled, ih] <;>
      exact ⟨pr.1, pr.2, rfl⟩

theorem processBatch_accumMoved (ops : TrainOps M Opt S I O G D LR) (stop : Nat → Bool)
    (aw : Nat) (dm : D) (e t : Nat) (pr : Nat × Nat) :
    ∀ (items : List (O × G)) (it : Nat) (st : TState M Opt S G D),
      accumMovedTo dm (processBatch ops stop aw dm e t pr items it st).1 := by
  intro items
  induction items with
  | nil => intro it st; simp [processBatch, accumMovedTo]
  | cons x rest ih =>
    intro it st
    simp only [accumMovedTo, List.forall_iff_forall_mem] at ih ⊢
    by_cases hw : aw ≤ st.accCur + 1 <;> by_cases hs : stop (it + 1) <;>
      simp [processBatch, hs, hw, List.forall_iff_forall_mem] <;>
      intro a ha <;> exact ih _ _ a ha

theorem processBatch_optim (ops : TrainOps M Opt S I O G D LR) (stop : Nat → Bool)
    (aw : Nat) (dm : D) (e t : Nat) (pr : Nat × Nat) (hW : 1 ≤ aw) :
    ∀ (items : List (O × G)) (it : Nat) (st : TState M Opt S G D),
      st.accCur < aw → st.acc.length = st.accCur →
      countOptim (processBatch ops stop aw dm e t pr items it st).1 =
          (st.accCur + countProcessed (processBatch ops stop aw dm e t pr items it st).1) / aw ∧
        (processBatch ops stop aw dm e t pr items it st).2.1.accCur =
          (st.accCur + countProcessed (processBatch ops stop aw dm e t pr items it st).1) % aw ∧
        (processBatch ops stop aw dm e t pr items it st).2.1.acc.length =
          (processBatch ops stop aw dm e t pr items it st).2.1.accCur := by
  intro items
  induction items with
  | nil =>
    intro it st hcur hlen
    simp [processBatch]
    refine ⟨(Nat.div_eq_of_lt hcur).symm, (Nat.mod_eq_of_lt hcur).symm, hlen⟩
  | cons x rest ih =>
    intro it st hcur hlen
    by_cases hw : aw ≤ st.accCur + 1 <;> by_cases hs : stop (it + 1)
    · have hc : st.accCur + 1 = aw := by omega
      simp [processBatch, hs, hw]
      refine ⟨?_, ?_⟩
      · rw [← hc, Nat.div_self (by omega)]
      · rw [← hc, Nat.mod_self]
    · have hc : st.accCur + 1 = aw := by omega
      obtain ⟨h1, h2, h3⟩ := ih (it + 1) ⟨_, _, _, ([] : List (GradVal G D)), 0⟩ hW (by simp)
      simp at h1 h2 h3
      simp [processBatch, hs, hw, List.filter_append]
      rw [h1, h2]
      refine ⟨?_, ?_, h3.trans h2⟩
      · exact div_flush_arith _ _ _ hc
      · exact mod_flush_arith _ _ _ hc
    · simp [processBatch, hs, hw]
      have hlt : st.accCur + 1 < aw := by omega
      refine ⟨(Nat.div_eq_of_lt hlt).symm, (Nat.mod_eq_of_lt hlt).symm, by simp [hlen]⟩
    · have hlt : st.accCur + 1 < aw := by omega
      obtain ⟨h1, h2, h3⟩ := ih (it + 1)
        ⟨st.model, st.optim, (ops.schedStep st.sched).2,
          st.acc ++ [GradVal.toDevice (GradVal.raw x.2) dm], st.accCur + 1⟩ hlt (by simp [hlen])
      simp at h1 h2 h3
      simp [processBatch, hs, hw, List.filter_append]
      rw [h1, h2]
      refine ⟨?_, ?_, h3.trans h2⟩
      · congr 1
        omega
      · congr 1
        omega

theorem processBatch_cancel (ops : TrainOps M Opt S I O G D LR) (stop : Nat → Bool)
    (aw : Nat) (dm : D) (e t : Nat) (pr : Nat × Nat) (k : Nat) (hk : stop k = true) :
    ∀ (items : List (O × G)) (it : Nat) (st : TState M Opt S G D), it < k →
      countProcessed (processBatch ops stop aw dm e t pr items it st).1 ≤ k - it ∧
        ((processBatch ops stop aw dm e t pr items it st).2.2.2 = false →
          (processBatch ops stop aw dm e t pr items it st).2.2.1 < k) := by
  intro items
  induction items with
  | nil =>
    intro it st h
    simp [processBatch]
    omega
  | cons x rest ih =>
    intro it st hlt
    have hnext : ¬ stop (it + 1) = true → it + 1 < k := by
      intro hs
      rcases Nat.lt_or_ge (it + 1) k with h | h
      · exact h
      · have : it + 1 = k := by omega
        rw [this] at hs; exact absurd hk hs
    by_cases hw : aw ≤ st.accCur + 1 <;> by_cases hs : stop (it + 1)
    · simp [processBatch, hs, hw]
      omega
    · obtain ⟨ha, hb⟩ := ih (it + 1) (⟨_, _, _, ([] : List (GradVal G D)), 0⟩) (hnext hs)
      simp [processBatch, hs, hw, List.filter_append]
      constructor
      · refine le_trans (Nat.add_le_add_right ha 1) ?_
        omega
      · exact hb
    · simp [processBatch, hs, hw]
      omega
    · obtain ⟨ha, hb⟩ := ih (it + 1)
        ⟨st.model, st.optim, (ops.schedStep st.sched).2,
          st.acc ++ [GradVal.toDevice (GradVal.raw x.2) dm], st.accCur + 1⟩ (hnext hs)
      simp [processBatch, hs, hw, List.filter_append]
      constructor
      · refine le_trans (Nat.add_le_add_right ha 1) ?_
        omega
      · exact hb

theorem processBatch_ne_nil (ops : TrainOps M Opt S I O G D LR) (stop : Nat → Bool)
    (aw : Nat) (dm : D) (e t : Nat) (pr : Nat × Nat) (a : O × G)
    (l : List (O × G)) (it : Nat) (st : TState M Opt S G D) :
    (processBatch ops stop aw dm e t pr (a :: l) it st).1 ≠ [] := by
  by_cases hw : aw ≤ st.accCur + 1 <;> by_cases hs : stop (it + 1) <;>
    simp [processBatch, hs, hw]

theorem range'_consec (s m n : Nat) :
    List.range' (s + 1) m ++ List.range' (s + m + 1) n = List.range' (s + 1) (m + n) := by
  have h : s + m + 1 = (s + 1) + m := by omega
  rw [h, List.range'_append_1, Nat.add_comm n m]

theorem multiLoop_countEnd (ops : TrainOps M Opt S I O G D LR) (stop : Nat → Bool)
    (aw : Nat) (dm : D) (e t ft : Nat) :
    ∀ (first : List I) (others : List (List I)) (it : Nat) (st : TState M Opt S G D),
      countEnd (multiLoop ops stop aw dm e t ft first others it st).1 = 0 := by
  intro first
  induction first with
  | nil => intro others it st; simp [multiLoop]
  | cons x xs ih =>
    intro others it st
    have hpb := processBatch_countEnd ops stop aw dm e t (ft - xs.length, ft)
    simp at hpb ih
    by_cases hA : ((x :: xs) :: others).any List.isEmpty
    · simp [multiLoop, multiDeviceStep, hA]
    · by_cases hI : (processBatch ops stop aw dm e t (ft - xs.length, ft)
          (ops.step st.model x ::
            others.filterMap (fun l => Option.map (ops.step st.model) l.head?))
          it st).2.2.2
      · simp [multiLoop, multiDeviceStep, hA, hI, List.filter_append]
        exact fun a ha => hpb _ _ _ a ha
      · simp [multiLoop, multiDeviceStep, hA, hI, List.filter_append]
        constructor
        · exact fun a ha => hpb _ _ _ a ha
        · exact fun a ha => ih _ _ _ a ha

theorem multiLoop_itSum (ops : TrainOps M Opt S I O G D LR) (stop : Nat → Bool)
    (aw : Nat) (dm : D) (e t ft : Nat) :
    ∀ (first : List I) (others : List (List I)) (it : Nat) (st : TState M Opt S G D),
      (multiLoop ops stop aw dm e t ft first others it st).2.2 =
        it + countProcessed (multiLoop ops stop aw dm e t ft first others it st).1 := by
  intro first
  induction first with
  | nil => intro others it st; simp [multiLoop]
  | cons x xs ih =>
    intro others it st
    have hpb := processBatch_itSum ops stop aw dm e t (ft - xs.length, ft)
    simp at hpb ih
    by_cases hA : ((x :: xs) :: others).any List.isEmpty
    · simp [multiLoop, multiDeviceStep, hA]
    · by_cases hI : (processBatch ops stop aw dm e t (ft - xs.length, ft)
          (ops.step st.model x ::
            others.filterMap (fun l => Option.map (ops.step st.model) l.head?))
          it st).2.2.2
      · simp [multiLoop, multiDeviceStep, hA, hI, List.filter_append, hpb]
      · simp [multiLoop, multiDeviceStep, hA, hI, List.filter_append, hpb, ih]
        omega

theorem multiLoop_iters (ops : TrainOps M Opt S I O G D LR) (stop : Nat → Bool)
    (aw : Nat) (dm : D) (e t ft : Nat) :
    ∀ (first : List I) (others : List (List I)) (it : Nat) (st : TState M Opt S G D),
      processedIters (multiLoop ops stop aw dm e t ft first others it st).1 =
        List.range' (it + 1)
          (countProcessed (multiLoop ops stop aw dm e t ft first others it st).1) := by
  intro first
  induction first with
  | nil => intro others it st; simp [multiLoop]
  | cons x xs ih =>
    intro others it st
    have hpb := processBatch_iters ops stop aw dm e t (ft - xs.length, ft)
    have hsum := processBatch_itSum ops stop aw dm e t (ft - xs.length, ft)
    simp at hpb hsum ih
    by_cases hA : ((x :: xs) :: others).any List.isEmpty
    · simp [multiLoop, multiDeviceStep, hA]
    · by_cases hI : (processBatch ops stop aw dm e t (ft - xs.length, ft)
          (ops.step st.model x ::
            others.filterMap (fun l => Option.map (ops.step st.model) l.head?))
          it st).2.2.2
      · simp [multiLoop, multiDeviceStep, hA, hI, List.filter_append,
          List.filterMap_append, hpb]
      · simp [multiLoop, multiDeviceStep, hA, hI, List.filter_append,
          List.filterMap_append, hpb, ih, hsum]
        rw [range'_consec]

theorem multiLoop_schedLRs (ops : TrainOps M Opt S I O G D LR) (stop : Nat → Bool)
    (aw : Nat) (dm : D) (e t ft : Nat) :
    ∀ (first : List I) (others : List (List I)) (it : Nat) (st : TState M Opt S G D),
      schedLRs (multiLoop ops stop aw dm e t ft first others it st).1 =
        itemLRs (multiLoop ops stop aw dm e t ft first others it st).1 := by
  intro first
  induction first with
  | nil => intro others it st; simp [multiLoop]
  | cons x xs ih =>
    intro others it st
    have hpb := processBatch_schedLRs ops stop aw dm e t (ft - xs.length, ft)
    simp at hpb ih
    by_cases hA : ((x :: xs) :: others).any List.isEmpty
    · simp [multiLoop, multiDeviceStep, hA]
    · by_cases hI : (processBatch ops stop aw dm e t (ft - xs.length, ft)
          (ops.step st.model x ::
            others.filterMap (fun l => Option.map (ops.step st.model) l.head?))
          it st).2.2.2
      · simp [multiLoop, multiDeviceStep, hA, hI, List.filterMap_append, hpb]
      · simp [multiLoop, multiDeviceStep, hA, hI, List.filterMap_append, hpb, ih]

theorem multiLoop_countSched (ops : TrainOps M Opt S I O G D LR) (stop : Nat → Bool)
    (aw : Nat) (dm : D) (e t ft : Nat) :
    ∀ (first : List I) (others : List (List I)) (it : Nat) (st : TState M Opt S G D),
      countSched (multiLoop ops stop aw dm e t ft first others it st).1 =
        countProcessed (multiLoop ops stop aw dm e t ft first others it st).1 := by
  intro first
  induction first with
  | nil => intro others it st; simp [multiLoop]
  | cons x xs ih =>
    intro others it st
    have hpb := processBatch_countSched ops stop aw dm e t (ft - xs.length, ft)
    simp at hpb ih
    by_cases hA : ((x :: xs) :: others).any List.isEmpty
    · simp [multiLoop, multiDeviceStep, hA]
    · by_cases hI : (processBatch ops stop aw dm e t (ft - xs.length, ft)
          (ops.step st.model x ::
            others.filterMap (fun l => Option.map (ops.step st.model) l.head?))
          it st).2.2.2
      · simp [multiLoop, multiDeviceStep, hA, hI, List.filter_append, hpb]
      · simp [multiLoop, multiDeviceStep, hA, hI, List.filter_append, hpb, ih]

theorem multiLoop_last (ops : TrainOps M Opt S I O G D LR) (stop : Nat → Bool)
    (aw : Nat) (dm : D) (e t ft : Nat) :
    ∀ (first : List I) (others : List (List I)) (it : Nat) (st : TState M Opt S G D),
      lastProcessedOrNil (multiLoop ops stop aw dm e t ft first others it st).1 := by
  intro first
  induction first with
  | nil => intro others it st; simp [multiLoop, lastProcessedOrNil]
  | cons x xs ih =>
    intro others it st
    by_cases hA : ((x :: xs) :: others).any List.isEmpty
    · simp [multiLoop, multiDeviceStep, hA, lastProcessedOrNil]
    · by_cases hI : (processBatch ops stop aw dm e t (ft - xs.length, ft)
          (ops.step st.model x ::
            others.filterMap (fun l => Option.map (ops.step st.model) l.head?))
          it st).2.2.2
      · simp [multiLoop, multiDeviceStep, hA, hI]
        refine lastOk_append (processBatch_last ops stop aw dm e t _ _ _ _) ?_
        intro hnil
        exact absurd hnil (processBatch_ne_nil ops stop aw dm e t _ _ _ _ _)
      · simp [multiLoop, multiDeviceStep, hA, hI]
        refine lastOk_append (lastOk_append (ih _ _ _) ?_) ?_
        · intro hnil
          exact processBatch_last ops stop aw dm e t _ _ _ _
        · intro hnil
          simp at hnil
          exact absurd hnil.1 (processBatch_ne_nil ops stop aw dm e t _ _ _ _ _)

theorem multiLoop_chain (ops : TrainOps M Opt S I O G D LR) (stop : Nat → Bool)
    (aw : Nat) (dm : D) (e t ft : Nat) :
    ∀ (first : List I) (others : List (List I)) (it : Nat) (st : TState M Opt S G D),
      List.Chain' optimLabeled (multiLoop ops stop aw dm e t ft first others it st).1 := by
  intro first
  induction first with
  | nil => intro others it st; simp [multiLoop]
  | cons x xs ih =>
    intro others it st
    by_cases hA : ((x :: xs) :: others).any List.isEmpty
    · simp [multiLoop, multiDeviceStep, hA]
    · by_cases hI : (processBatch ops stop aw dm e t (ft - xs.length, ft)
          (ops.step st.model x ::
            others.filterMap (fun l => Option.map (ops.step st.model) l.head?))
          it st).2.2.2
      · simp [multiLoop, multiDeviceStep, hA, hI]
        exact chain'_prepend_stepExecs _ (processBatch_chain ops stop aw dm e t _ _ _ _)
      · simp [multiLoop, multiDeviceStep, hA, hI]
        refine chain'_prepend_stepExecs _ ?_
        refine chain'_append_procLast optimLabeled_of_processed
          (processBatch_chain ops stop aw dm e t _ _ _ _) (ih _ _ _)
          (processBatch_last ops stop aw dm e t _ _ _ _)

theorem multiLoop_accumMoved (ops : TrainOps M Opt S I O G D LR) (stop : Nat → Bool)
    (aw : Nat) (dm : D) (e t ft : Nat) :
    ∀ (first : List I) (others : List (List I)) (it : Nat) (st : TState M Opt S G D),
      accumMovedTo dm (multiLoop ops stop aw dm e t ft first others it st).1 := by
  intro first
  induction first with
  | nil => intro others it st; simp [multiLoop, accumMovedTo]
  | cons x xs ih =>
    intro others it st
    have hpb := processBatch_accumMoved ops stop aw dm e t (ft - xs.length, ft)
    simp only [accumMovedTo, List.forall_iff_forall_mem] at hpb ih ⊢
    by_cases hA : ((x :: xs) :: others).any List.isEmpty
    · simp [multiLoop, multiDeviceStep, hA]
    · by_cases hI : (processBatch ops stop aw dm e t (ft - xs.length, ft)
          (ops.step st.model x ::
            others.filterMap (fun l => Option.map (ops.step st.model) l.head?))
          it st).2.2.2
      · simp [multiLoop, multiDeviceStep, hA, hI]
        exact fun a ha => hpb _ _ _ a ha
      · simp [multiLoop, multiDeviceStep, hA, hI]
        intro a ha
        rcases ha with ha | ha
        · exact hpb _ _ _ a ha
        · exact ih _ _ _ a ha

theorem multiLoop_optim (ops : TrainOps M Opt S I O G D LR) (stop : Nat → Bool)
    (aw : Nat) (dm : D) (e t ft : Nat) (hW : 1 ≤ aw) :
    ∀ (first : List I) (others : List (List I)) (it : Nat) (st : TState M Opt S G D),
      st.accCur < aw → st.acc.length = st.accCur →
      countOptim (multiLoop ops stop aw dm e t ft first others it st).1 =
          (st.accCur + countProcessed (multiLoop ops stop aw dm e t ft first others it st).1) / aw ∧
        (multiLoop ops stop aw dm e t ft first others it st).2.1.accCur =
          (st.accCur + countProcessed (multiLoop ops stop aw dm e t ft first others it st).1) % aw ∧
        (multiLoop ops stop aw dm e t ft first others it st).2.1.acc.length =
          (multiLoop ops stop aw dm e t ft first others it st).2.1.accCur := by
  intro first
  induction first with
  | nil =>
    intro others it st hcur hlen
    simp [multiLoop]
    exact ⟨(Nat.div_eq_of_lt hcur).symm, (Nat.mod_eq_of_lt hcur).symm, hlen⟩
  | cons x xs ih =>
    intro others it st hcur hlen
    by_cases hA : ((x :: xs) :: others).any List.isEmpty
    · simp [multiLoop, multiDeviceStep, hA]
      exact ⟨(Nat.div_eq_of_lt hcur).symm, (Nat.mod_eq_of_lt hcur).symm, hlen⟩
    · have hpbo := processBatch_optim ops stop aw dm e t (ft - xs.length, ft) hW
      obtain ⟨h1, h2, h3⟩ := hpbo
        (ops.step st.model x ::
          others.filterMap (fun l => Option.map (ops.step st.model) l.head?))
        it st hcur hlen
      simp at h1 h2 h3
      by_cases hI : (processBatch ops stop aw dm e t (ft - xs.length, ft)
          (ops.step st.model x ::
            others.filterMap (fun l => Option.map (ops.step st.model) l.head?))
          it st).2.2.2
      · simp [multiLoop, multiDeviceStep, hA, hI, List.filter_append]
        exact ⟨h1, h2, h3⟩
      · obtain ⟨g1, g2, g3⟩ := ih (others.map List.tail)
          ((processBatch ops stop aw dm e t (ft - xs.length, ft)
            (ops.step st.model x ::
              others.filterMap (fun l => Option.map (ops.step st.model) l.head?))
            it st).2.2.1)
          ((processBatch ops stop aw dm e t (ft - xs.length, ft)
            (ops.step st.model x ::
              others.filterMap (fun l => Option.map (ops.step st.model) l.head?))
            it st).2.1)
          (by rw [h2]; exact Nat.mod_lt _ (by omega)) h3
        simp at g1 g2 g3
        simp [multiLoop, multiDeviceStep, hA, hI, List.filter_append]
        refine ⟨?_, ?_, g3⟩
        · rw [g1, h1, h2, div_accum_arith _ _ _ (by omega)]
          congr 1
          omega
        · rw [g2, h2, Nat.mod_add_mod]
          congr 1
          omega

theorem multiLoop_cancel (ops : TrainOps M Opt S I O G D LR) (stop : Nat → Bool)
    (aw : Nat) (dm : D) (e t ft k : Nat) (hk : stop k = true) :
    ∀ (first : List I) (others : List (List I)) (it : Nat) (st : TState M Opt S G D),
      it < k →
      countProcessed (multiLoop ops stop aw dm e t ft first others it st).1 ≤ k - it := by
  intro first
  induction first with
  | nil => intro others it st h; simp [multiLoop]
  | cons x xs ih =>
    intro others it st hlt
    by_cases hA : ((x :: xs) :: others).any List.isEmpty
    · simp [multiLoop, multiDeviceStep, hA]
    · obtain ⟨hp1, himp⟩ := processBatch_cancel ops stop aw dm e t (ft - xs.length, ft) k hk
        (ops.step st.model x ::
          others.filterMap (fun l => Option.map (ops.step st.model) l.head?))
        it st hlt
      simp at hp1
      by_cases hI : (processBatch ops stop aw dm e t (ft - xs.length, ft)
          (ops.step st.model x ::
            others.filterMap (fun l => Option.map (ops.step st.model) l.head?))
          it st).2.2.2
      · simp [multiLoop, multiDeviceStep, hA, hI, List.filter_append]
        omega
      · have hlt2 := himp (by simpa using hI)
        have hsum := processBatch_itSum ops stop aw dm e t (ft - xs.length, ft)
          (ops.step st.model x ::
            others.filterMap (fun l => Option.map (ops.step st.model) l.head?))
          it st
        simp at hsum
        have hrec := ih (others.map List.tail)
          ((processBatch ops stop aw dm e t (ft - xs.length, ft)
            (ops.step st.model x ::
              others.filterMap (fun l => Option.map (ops.step st.model) l.head?))
            it st).2.2.1)
          ((processBatch ops stop aw dm e t (ft - xs.length, ft)
            (ops.step st.model x ::
              others.filterMap (fun l => Option.map (ops.step st.model) l.head?))
            it st).2.1) hlt2
        simp at hrec
        simp [multiLoop, multiDeviceStep, hA, hI, List.filter_append]
        omega

/-! ## Claim theorems -/

/-- C1 counterexample: in `run_multi_device` with 2 devices, 3 items per
source and no accumulation window, 6 items are processed but the optimizer
is updated only 3 times (`accumulation = unwrap_or(1) * devices.len() = 2`),
so the optimizer is not updated once per processed item as claimed (and as
the spec's own example demands). -/
theorem C1_counterexample :
    countProcessed ((trainRunMultiAux natOps noStop 0 [1]
        ⟨[[1, 2, 3], [4, 5, 6]], 1, 5, none⟩ 0 0 0).1) = 6 ∧
      countOptim ((trainRunMultiAux natOps noStop 0 [1]
        ⟨[[1, 2, 3], [4, 5, 6]], 1, 5, none⟩ 0 0 0).1) = 3 ∧
      countOptim ((trainRunMultiAux natOps noStop 0 [1]
        ⟨[[1, 2, 3], [4, 5, 6]], 1, 5, none⟩ 0 0 0).1) ≠
        countProcessed ((trainRunMultiAux natOps noStop 0 [1]
        ⟨[[1, 2, 3], [4, 5, 6]], 1, 5, none⟩ 0 0 0).1) := by
  decide

/-- C1 (amended): with no accumulation window, the single-device `run`
updates the optimizer exactly once per processed item, while
`run_multi_device` on `D` devices updates it exactly once per `D` processed
items (effective window `unwrap_or(1) * D = D`), i.e. `⌊items / D⌋` times. -/
theorem C1_optimizer_update_cadence (ops : TrainOps M Opt S I O G D LR)
    (stop : Nat → Bool) (dl : List I) (dls : List (List I)) (e t : Nat)
    (m : M) (o : Opt) (s : S) (dmain : D) (drest : List D) :
    countOptim (trainRunAux ops stop dl ⟨dls, e, t, none⟩ m o s).1 =
        countProcessed (trainRunAux ops stop dl ⟨dls, e, t, none⟩ m o s).1 ∧
      countOptim (trainRunMultiAux ops stop dmain drest ⟨dls, e, t, none⟩ m o s).1 =
        countProcessed (trainRunMultiAux ops stop dmain drest ⟨dls, e, t, none⟩ m o s).1 /
          (dmain :: drest).length := by
  constructor
  · have h := trainLoop_none_optim ops stop e t dl.length dl 0 ⟨m, o, s, [], 0⟩
    simp at h
    simp [trainRunAux, List.filter_append, h]
  · have h := multiLoop_optim ops stop (drest.length + 1) dmain e t
      ((dls.headD []).length) (by omega) (dls.headD []) dls.tail 0 ⟨m, o, s, [], 0⟩
      (by simp) (by simp)
    simp at h
    simp [trainRunMultiAux, List.filter_append, h.1]

/-- C2: with a configured window `W ≥ 1`, the single-device `run` updates
the optimizer exactly once per `W` processed items (`⌊items / W⌋` updates),
and `run_multi_device` on `D` devices exactly once per `W × D` items; in
both cases the remainder (`items mod window`) is still sitting in the
accumulator when the epoch ends — it is never flushed into an optimizer
update. -/
theorem C2_window_update_cadence (ops : TrainOps M Opt S I O G D LR)
    (stop : Nat → Bool) (dl : List I) (dls : List (List I)) (e t : Nat)
    (m : M) (o : Opt) (s : S) (dmain : D) (drest : List D) (W : Nat)
    (hW : 1 ≤ W) :
    (countOptim (trainRunAux ops stop dl ⟨dls, e, t, some W⟩ m o s).1 =
        countProcessed (trainRunAux ops stop dl ⟨dls, e, t, some W⟩ m o s).1 / W ∧
      (trainRunAux ops stop dl ⟨dls, e, t, some W⟩ m o s).2.1.accCur =
        countProcessed (trainRunAux ops stop dl ⟨dls, e, t, some W⟩ m o s).1 % W ∧
      (trainRunAux ops stop dl ⟨dls, e, t, some W⟩ m o s).2.1.acc.length =
        (trainRunAux ops stop dl ⟨dls, e, t, some W⟩ m o s).2.1.accCur) ∧
    (countOptim (trainRunMultiAux ops stop dmain drest ⟨dls, e, t, some W⟩ m o s).1 =
        countProcessed (trainRunMultiAux ops stop dmain drest ⟨dls, e, t, some W⟩ m o s).1 /
          (W * (dmain :: drest).length) ∧
      (trainRunMultiAux ops stop dmain drest ⟨dls, e, t, some W⟩ m o s).2.1.accCur =
        countProcessed (trainRunMultiAux ops stop dmain drest ⟨dls, e, t, some W⟩ m o s).1 %
          (W * (dmain :: drest).length) ∧
      (trainRunMultiAux ops stop dmain drest ⟨dls, e, t, some W⟩ m o s).2.1.acc.length =
        (trainRunMultiAux ops stop dmain drest ⟨dls, e, t, some W⟩ m o s).2.1.accCur) := by
  constructor
  · have h := trainLoop_some_optim ops stop W e t dl.length hW dl 0 ⟨m, o, s, [], 0⟩
      (by simpa using hW) (by simp)
    simp at h
    simp [trainRunAux, List.filter_append, h.1, h.2.1, h.2.2]
  · have h := multiLoop_optim ops stop (W * (drest.length + 1)) dmain e t
      ((dls.headD []).length)
      (Nat.mul_pos (by omega) (by omega)) (dls.headD []) dls.tail 0 ⟨m, o, s, [], 0⟩
      (by simpa using Nat.mul_pos (show 0 < W by omega) (show 0 < drest.length + 1 by omega))
      (by simp)
    simp at h
    simp [trainRunMultiAux, List.filter_append, h.1, h.2.1, h.2.2]

/-- C2 witness: window 2, one device, 5 items — 2 optimizer updates (after
items 2 and 4) and one unflushed gradient left in the accumulator. -/
theorem C2_witness :
    1 ≤ 2 ∧
      countOptim ((trainRunAux natOps noStop [1, 2, 3, 4, 5]
          ⟨[[1, 2, 3, 4, 5]], 1, 5, some 2⟩ 0 0 0).1) =
        countProcessed ((trainRunAux natOps noStop [1, 2, 3, 4, 5]
          ⟨[[1, 2, 3, 4, 5]], 1, 5, some 2⟩ 0 0 0).1) / 2 :=
  ⟨by decide, (C2_window_update_cadence natOps noStop [1, 2, 3, 4, 5]
    [[1, 2, 3, 4, 5]] 1 5 0 0 0 0 [] 2 (by decide)).1.1⟩

/-- C3: in all three runs — validation, single-device training and
multi-device training — the iteration counters carried by the emitted
`ProcessedItem` events are exactly `1, 2, 3, …`, one per processed item,
independent of the device count. -/
theorem C3_iteration_numbering (stepf : MV → I → O) (mv : MV)
    (vdl : List I) (ve vt : Nat) (ops : TrainOps M Opt S I O G D LR)
    (stopv stops stopm : Nat → Bool) (dl : List I) (dls : List (List I))
    (e t : Nat) (ga : Option Nat) (m : M) (o : Opt) (s : S) (dmain : D)
    (drest : List D) :
    processedIters (validRun stepf stopv ⟨vdl, ve, vt⟩ mv : List (Effect O G D LR)) =
        List.range' 1 (countProcessed
          (validRun stepf stopv ⟨vdl, ve, vt⟩ mv : List (Effect O G D LR))) ∧
      processedIters (trainRunAux ops stops dl ⟨dls, e, t, ga⟩ m o s).1 =
        List.range' 1 (countProcessed (trainRunAux ops stops dl ⟨dls, e, t, ga⟩ m o s).1) ∧
      processedIters (trainRunMultiAux ops stopm dmain drest ⟨dls, e, t, ga⟩ m o s).1 =
        List.range' 1 (countProcessed
          (trainRunMultiAux ops stopm dmain drest ⟨dls, e, t, ga⟩ m o s).1) := by
  refine ⟨?_, ?_, ?_⟩
  · simp [validRun, List.filterMap_append, List.filter_append]
    simpa using validLoop_iters stepf mv stopv ve vt vdl.length vdl 0
  · simp [trainRunAux, List.filterMap_append, List.filter_append]
    simpa using trainLoop_iters ops stops ga e t dl.length dl 0 ⟨m, o, s, [], 0⟩
  · simp [trainRunMultiAux, List.filterMap_append, List.filter_append]
    simpa using multiLoop_iters ops stopm (ga.getD 1 * (drest.length + 1)) dmain e t
      ((dls.headD []).length) (dls.headD []) dls.tail 0 ⟨m, o, s, [], 0⟩

/-- C4: every run call — validation, single-device training, multi-device
training — emits `EndEpoch` exactly once, as the final element of its trace
(hence after the last `ProcessedItem` event), whether the loop ended by data
exhaustion or by cancellation. -/
theorem C4_end_epoch_once_last (stepf : MV → I → O) (mv : MV)
    (vdl : List I) (ve vt : Nat) (ops : TrainOps M Opt S I O G D LR)
    (stopv stops stopm : Nat → Bool) (dl : List I) (dls : List (List I))
    (e t : Nat) (ga : Option Nat) (m : M) (o : Opt) (s : S) (dmain : D)
    (drest : List D) :
    (countEnd (validRun stepf stopv ⟨vdl, ve, vt⟩ mv : List (Effect O G D LR)) = 1 ∧
      (validRun stepf stopv ⟨vdl, ve, vt⟩ mv : List (Effect O G D LR)).getLast? =
        some (Effect.endEpoch ve)) ∧
    (countEnd (trainRunAux ops stops dl ⟨dls, e, t, ga⟩ m o s).1 = 1 ∧
      (trainRunAux ops stops dl ⟨dls, e, t, ga⟩ m o s).1.getLast? =
        some (Effect.endEpoch e)) ∧
    (countEnd (trainRunMultiAux ops stopm dmain drest ⟨dls, e, t, ga⟩ m o s).1 = 1 ∧
      (trainRunMultiAux ops stopm dmain drest ⟨dls, e, t, ga⟩ m o s).1.getLast? =
        some (Effect.endEpoch e)) := by
  refine ⟨⟨?_, ?_⟩, ⟨?_, ?_⟩, ⟨?_, ?_⟩⟩
  · simp [validRun, List.filter_append]
    simpa using validLoop_countEnd stepf mv stopv ve vt vdl.length vdl 0
  · simp [validRun]
  · simp [trainRunAux, List.filter_append]
    simpa using trainLoop_countEnd ops stops ga e t dl.length dl 0 ⟨m, o, s, [], 0⟩
  · simp [trainRunAux]
  · simp [trainRunMultiAux, List.filter_append]
    simpa using multiLoop_countEnd ops stopm (ga.getD 1 * (drest.length + 1)) dmain e t
      ((dls.headD []).length) (dls.headD []) dls.tail 0 ⟨m, o, s, [], 0⟩
  · simp [trainRunMultiAux]

/-- C5: if the cancellation token is raised at the poll following item `k`
(`stop k = true`, `k ≥ 1`), then in each run at most `k` items are processed
— no `ProcessedItem` event for item `k+1` is ever emitted — and the
`EndEpoch` event is still emitted exactly once. -/
theorem C5_cancellation (stepf : MV → I → O) (mv : MV)
    (vdl : List I) (ve vt : Nat) (ops : TrainOps M Opt S I O G D LR)
    (stop : Nat → Bool) (dl : List I) (dls : List (List I))
    (e t : Nat) (ga : Option Nat) (m : M) (o : Opt) (s : S) (dmain : D)
    (drest : List D) (k : Nat) (hk : stop k = true) (h1 : 1 ≤ k) :
    (countProcessed (validRun stepf stop ⟨vdl, ve, vt⟩ mv : List (Effect O G D LR)) ≤ k ∧
      countEnd (validRun stepf stop ⟨vdl, ve, vt⟩ mv : List (Effect O G D LR)) = 1) ∧
    (countProcessed (trainRunAux ops stop dl ⟨dls, e, t, ga⟩ m o s).1 ≤ k ∧
      countEnd (trainRunAux ops stop dl ⟨dls, e, t, ga⟩ m o s).1 = 1) ∧
    (countProcessed (trainRunMultiAux ops stop dmain drest ⟨dls, e, t, ga⟩ m o s).1 ≤ k ∧
      countEnd (trainRunMultiAux ops stop dmain drest ⟨dls, e, t, ga⟩ m o s).1 = 1) := by
  refine ⟨⟨?_, ?_⟩, ⟨?_, ?_⟩, ⟨?_, ?_⟩⟩
  · have h : countProcessed
        (validLoop stepf mv stop ve vt vdl.length vdl 0 : List (Effect O G D LR)) ≤
          k - 0 :=
      validLoop_cancel stepf mv stop ve vt vdl.length k hk vdl 0 (by omega)
    simp at h
    simp [validRun, List.filter_append]
    omega
  · simp [validRun, List.filter_append]
    simpa using validLoop_countEnd stepf mv stop ve vt vdl.length vdl 0
  · have h := trainLoop_cancel ops stop ga e t dl.length k hk dl 0 ⟨m, o, s, [], 0⟩ (by omega)
    simp at h
    simp [trainRunAux, List.filter_append]
    omega
  · simp [trainRunAux, List.filter_append]
    simpa using trainLoop_countEnd ops stop ga e t dl.length dl 0 ⟨m, o, s, [], 0⟩
  · have h := multiLoop_cancel ops stop (ga.getD 1 * (drest.length + 1)) dmain e t
      ((dls.headD []).length) k hk (dls.headD []) dls.tail 0 ⟨m, o, s, [], 0⟩ (by omega)
    simp at h
    simp [trainRunMultiAux, List.filter_append]
    omega
  · simp [trainRunMultiAux, List.filter_append]
    simpa using multiLoop_countEnd ops stop (ga.getD 1 * (drest.length + 1)) dmain e t
      ((dls.headD []).length) (dls.headD []) dls.tail 0 ⟨m, o, s, [], 0⟩

/-- C5 witness: with the token raised from poll 2 on, a 5-item single-device
run processes at most 2 items and still emits one `EndEpoch`. -/
theorem C5_witness :
    stopFrom 2 2 = true ∧ 1 ≤ 2 ∧
      countProcessed ((trainRunAux natOps (stopFrom 2) [1, 2, 3, 4, 5]
          ⟨[[1, 2, 3, 4, 5]], 1, 5, none⟩ 0 0 0).1) ≤ 2 :=
  ⟨by decide, by decide,
    ((C5_cancellation (fun (m i : Nat) => m + i) 0 [1] 1 4 natOps (stopFrom 2)
      [1, 2, 3, 4, 5] [[1, 2, 3, 4, 5]] 1 5 none 0 0 0 0 [] 2 (by decide)
      (by decide)).2.1).1⟩

/-- C6 counterexample: a `run_multi_device` call with one device and one
item performs exactly one training iteration — one scheduler advance and one
model step execution — but the step execution (trace position 0) precedes
the scheduler advance (trace position 1): at no pair of positions does a
scheduler advance come before a model step execution.  The dispatcher runs
the batch's model steps before the per-item scheduler advances, so the
scheduler is not advanced "before the model step executes" in the
multi-device runner. -/
theorem C6_counterexample :
    ((trainRunMultiAux natOps noStop 7 [] ⟨[[5]], 1, 5, none⟩ 0 0 0).1).length = 6 ∧
      countSched ((trainRunMultiAux natOps noStop 7 [] ⟨[[5]], 1, 5, none⟩ 0 0 0).1) = 1 ∧
      countStepExec ((trainRunMultiAux natOps noStop 7 [] ⟨[[5]], 1, 5, none⟩ 0 0 0).1) = 1 ∧
      stepExecAt ((trainRunMultiAux natOps noStop 7 [] ⟨[[5]], 1, 5, none⟩ 0 0 0).1) 0 = true ∧
      schedAt ((trainRunMultiAux natOps noStop 7 [] ⟨[[5]], 1, 5, none⟩ 0 0 0).1) 1 = true ∧
      (∀ j, j < 6 → ∀ i, i < j →
        ¬(schedAt ((trainRunMultiAux natOps noStop 7 [] ⟨[[5]], 1, 5, none⟩ 0 0 0).1) i = true ∧
          stepExecAt ((trainRunMultiAux natOps noStop 7 [] ⟨[[5]], 1, 5, none⟩ 0 0 0).1) j = true)) := by
  decide

/-- C6 (amended): in both training runs the scheduler is advanced exactly
once per iteration and the single value drawn labels that iteration's
emitted item and is used by any optimizer update of the iteration (every
optimizer update is immediately followed by the matching `ProcessedItem`
event carrying the same rate, and the trace ends with `EndEpoch`, so no
update is last).  In the single-device run the advance additionally happens
immediately before the model step executes; in the multi-device run the
batch's model steps execute before the per-item advances. -/
theorem C6_lr_drawn_once_consistent (ops : TrainOps M Opt S I O G D LR)
    (stop stopm : Nat → Bool) (dl : List I) (dls : List (List I)) (e t : Nat)
    (ga : Option Nat) (m : M) (o : Opt) (s : S) (dmain : D) (drest : List D) :
    (countSched (trainRunAux ops stop dl ⟨dls, e, t, ga⟩ m o s).1 =
        countProcessed (trainRunAux ops stop dl ⟨dls, e, t, ga⟩ m o s).1 ∧
      schedLRs (trainRunAux ops stop dl ⟨dls, e, t, ga⟩ m o s).1 =
        itemLRs (trainRunAux ops stop dl ⟨dls, e, t, ga⟩ m o s).1 ∧
      List.Chain' singleSucc (trainRunAux ops stop dl ⟨dls, e, t, ga⟩ m o s).1 ∧
      (trainRunAux ops stop dl ⟨dls, e, t, ga⟩ m o s).1.getLast? =
        some (Effect.endEpoch e)) ∧
    (countSched (trainRunMultiAux ops stopm dmain drest ⟨dls, e, t, ga⟩ m o s).1 =
        countProcessed (trainRunMultiAux ops stopm dmain drest ⟨dls, e, t, ga⟩ m o s).1 ∧
      schedLRs (trainRunMultiAux ops stopm dmain drest ⟨dls, e, t, ga⟩ m o s).1 =
        itemLRs (trainRunMultiAux ops stopm dmain drest ⟨dls, e, t, ga⟩ m o s).1 ∧
      List.Chain' optimLabeled (trainRunMultiAux ops stopm dmain drest ⟨dls, e, t, ga⟩ m o s).1 ∧
      (trainRunMultiAux ops stopm dmain drest ⟨dls, e, t, ga⟩ m o s).1.getLast? =
        some (Effect.endEpoch e)) := by
  refine ⟨⟨?_, ?_, ?_, ?_⟩, ⟨?_, ?_, ?_, ?_⟩⟩
  · simp [trainRunAux, List.filter_append]
    simpa using trainLoop_countSched ops stop ga e t dl.length dl 0 ⟨m, o, s, [], 0⟩
  · simp [trainRunAux, List.filterMap_append]
    simpa using trainLoop_schedLRs ops stop ga e t dl.length dl 0 ⟨m, o, s, [], 0⟩
  · simp only [trainRunAux]
    exact chain'_append_procLast singleSucc_of_processed
      (trainLoop_chain ops stop ga e t dl.length dl 0 ⟨m, o, s, [], 0⟩)
      (List.chain'_singleton _)
      (trainLoop_last ops stop ga e t dl.length dl 0 ⟨m, o, s, [], 0⟩)
  · simp [trainRunAux]
  · simp [trainRunMultiAux, List.filter_append]
    simpa using multiLoop_countSched ops stopm (ga.getD 1 * (drest.length + 1)) dmain e t
      ((dls.headD []).length) (dls.headD []) dls.tail 0 ⟨m, o, s, [], 0⟩
  · simp [trainRunMultiAux, List.filterMap_append]
    simpa using multiLoop_schedLRs ops stopm (ga.getD 1 * (drest.length + 1)) dmain e t
      ((dls.headD []).length) (dls.headD []) dls.tail 0 ⟨m, o, s, [], 0⟩
  · simp only [trainRunMultiAux]
    exact chain'_append_procLast optimLabeled_of_processed
      (multiLoop_chain ops stopm (ga.getD 1 * (dmain :: drest).length) dmain e t
        ((dls.headD []).length) (dls.headD []) dls.tail 0 ⟨m, o, s, [], 0⟩)
      (List.chain'_singleton _)
      (multiLoop_last ops stopm (ga.getD 1 * (dmain :: drest).length) dmain e t
        ((dls.headD []).length) (dls.headD []) dls.tail 0 ⟨m, o, s, [], 0⟩)
  · simp [trainRunMultiAux]

/-- C7: calling `run_multi_device` with an empty device list is rejected
before the loop starts (the `devices.first().expect` panic, embedded as
`none`): no item is pulled, no event is emitted, the optimizer is never
updated. -/
theorem C7_empty_devices_rejected (ops : TrainOps M Opt S I O G D LR)
    (stop : Nat → Bool) (te : TrainEpochS I) (m : M) (o : Opt) (s : S) :
    trainRunMulti ops stop ([] : List D) te m o s = none := rfl

/-- C8: each training run returns the runner with the epoch index
incremented by one and every other field unchanged, and the `EndEpoch`
event it emitted (the last trace element) carries the pre-increment index,
whether or not the run was interrupted; a validation run takes the runner
by shared reference and returns no updated runner at all, its `EndEpoch`
carrying the unchanged epoch index. -/
theorem C8_epoch_increment_only_mutation (stepf : MV → I → O) (mv : MV)
    (vdl : List I) (ve vt : Nat) (ops : TrainOps M Opt S I O G D LR)
    (stopv stops stopm : Nat → Bool) (dl : List I) (dls : List (List I))
    (e t : Nat) (ga : Option Nat) (m : M) (o : Opt) (s : S) (dmain : D)
    (drest : List D) :
    ((trainRunAux ops stops dl ⟨dls, e, t, ga⟩ m o s).2.2 =
        (⟨dls, e + 1, t, ga⟩ : TrainEpochS I) ∧
      (trainRunAux ops stops dl ⟨dls, e, t, ga⟩ m o s).1.getLast? =
        some (Effect.endEpoch e)) ∧
    ((trainRunMultiAux ops stopm dmain drest ⟨dls, e, t, ga⟩ m o s).2.2 =
        (⟨dls, e + 1, t, ga⟩ : TrainEpochS I) ∧
      (trainRunMultiAux ops stopm dmain drest ⟨dls, e, t, ga⟩ m o s).1.getLast? =
        some (Effect.endEpoch e)) ∧
    (validRun stepf stopv ⟨vdl, ve, vt⟩ mv : List (Effect O G D LR)).getLast? =
      some (Effect.endEpoch ve) := by
  refine ⟨⟨rfl, ?_⟩, ⟨rfl, ?_⟩, ?_⟩
  · simp [trainRunAux]
  · simp [trainRunMultiAux]
  · simp [validRun]

/-- C9: the primary device of `run_multi_device` is the first device of the
supplied list, and every gradient set merged into the accumulator is the
transfer of an item's raw step gradients onto that primary device. -/
theorem C9_primary_device_merge (ops : TrainOps M Opt S I O G D LR)
    (stop : Nat → Bool) (dmain : D) (drest : List D) (te : TrainEpochS I)
    (m : M) (o : Opt) (s : S) :
    trainRunMulti ops stop (dmain :: drest) te m o s =
        some (trainRunMultiAux ops stop dmain drest te m o s) ∧
      accumMovedTo dmain (trainRunMultiAux ops stop dmain drest te m o s).1 := by
  refine ⟨rfl, ?_⟩
  have h := multiLoop_accumMoved ops stop
    (te.gradAccumulation.getD 1 * (dmain :: drest).length) dmain te.epoch
    te.epochTotal ((te.dataloader.headD []).length) (te.dataloader.headD [])
    te.dataloader.tail 0 ⟨m, o, s, [], 0⟩
  simp only [accumMovedTo, List.forall_iff_forall_mem] at h ⊢
  simp only [trainRunMultiAux]
  intro x hx
  rcases List.mem_append.mp hx with hx | hx
  · exact h x hx
  · simp at hx
    subst hx
    simp

/-- C10: the single-device `run` reads only the first element of the
runner's data-source vector — its trace, final local state and epoch
increment are unchanged when the remaining sources are replaced — and with
an empty vector the call fails immediately (the `self.dataloader[0]`
out-of-bounds panic, embedded as `none`) before pulling any item, emitting
any event or updating the optimizer. -/
theorem C10_first_source_only (ops : TrainOps M Opt S I O G D LR)
    (stop : Nat → Bool) (dl : List I) (r1 r2 : List (List I)) (e t : Nat)
    (ga : Option Nat) (m : M) (o : Opt) (s : S) :
    trainRun ops stop ⟨[], e, t, ga⟩ m o s = none ∧
      (trainRun ops stop ⟨dl :: r1, e, t, ga⟩ m o s).map
          (fun x => (x.1, x.2.1, x.2.2.epoch)) =
        (trainRun ops stop ⟨dl :: r2, e, t, ga⟩ m o s).map
          (fun x => (x.1, x.2.1, x.2.2.epoch)) := by
  exact ⟨rfl, rfl⟩

end BurnEpoch
